import Mathlib

/-!
Verification development for `AfxHookSource/MirvCalcs.cpp` (advancedfx mirv calcs):
the typed calc-node graph (registries, node factories, composite node evaluation)
and the bounded-velocity/bounded-acceleration trajectory smoother `CalcSmooth`.

Machine doubles are modelled by exact arithmetic (`ℚ` where the code is pure
branching and field arithmetic, `ℝ` where `sqrt` appears); C++ success flags are
`Option`/`Bool`; a null-pointer dereference is an `Except` error.
-/

/-- `SOURCESDK::Vector` : a 3-component vector over the scalar type `K`. -/
structure V3 (K : Type) where
  x : K
  y : K
  z : K
deriving DecidableEq

/-- `SOURCESDK::QAngle` : a 3-component angle triple over the scalar type `K`. -/
structure A3 (K : Type) where
  x : K
  y : K
  z : K
deriving DecidableEq

/-- Rounding toward zero, the rounding used by the C `fmod`. -/
def ctrunc {K : Type} [LinearOrderedField K] [FloorRing K] (q : K) : ℤ :=
  if 0 ≤ q then ⌊q⌋ else ⌈q⌉

/-- C `fmod x y = x - trunc (x / y) * y` (result carries the sign of `x`). -/
def fmodC {K : Type} [LinearOrderedField K] [FloorRing K] (x y : K) : K :=
  x - y * (ctrunc (x / y) : K)

/-- `MirvCalcs.cpp` lines 1593-1597: the re-wrap applied to each raw rotation
delta of the Smooth node, `fmod (reaim + 180.0, 360.0) - 180.0`. -/
def wrapDelta {K : Type} [LinearOrderedField K] [FloorRing K] (d : K) : K :=
  fmodC (d + 180) 360 - 180

/-! ## Node base and registries (`CMirvCalc`, `CMirv*Calcs`)

All five family registries (`CMirvHandleCalcs`, `CMirvVecAngCalcs`, `CMirvCamCalcs`,
`CMirvFovCalcs`, `CMirvBoolCalcs`) repeat, textually, the same factory pattern
(lines 2040-2055, 2230-2245, ...), the same `Console_CheckName` (lines 2163-2190,
2420-2447, ...) and the same `Console_Remove` (lines 2143-2161, 2400-2418, ...).
They are embedded once, generically over the family-specific payload `α`. -/

/-- `CMirvCalc` (lines 290-341): display name (`name ? name : "(no name)"`) and
reference count (`int m_RefCount = 0`), plus the family payload `α`. -/
structure MirvCalc (α : Type) where
  name : String
  refCount : ℤ
  val : α
deriving DecidableEq

/-- The `CMirvCalc` constructor (line 293-297) together with the payload. -/
def mkMirvCalc {α : Type} (name : Option String) (v : α) : MirvCalc α :=
  { name := name.getD "(no name)", refCount := 0, val := v }

/-- `_stricmp a b == 0`: ASCII case-insensitive string equality, compared
character by character after lowering. -/
def striEq (a b : String) : Bool :=
  a.toList.map Char.toLower == b.toList.map Char.toLower

/-- `GetByName` / `GetIteratorByName` (lines 2028-2038, 2200-2207): scan the
registry list in order and return the first case-insensitive match, if any. -/
def GetByName {α : Type} : List (MirvCalc α) → String → Option (MirvCalc α)
  | [], _ => none
  | c :: rest, name => if striEq name c.name then some c else GetByName rest name

/-- Modelled from the spec: `StringIsAlNum` lives in `shared/StringTools` which is
not under `src/`; per the identifier validity rule (spec §6) it checks that every
character is an ASCII letter or digit. -/
def StringIsAlNum (s : String) : Bool :=
  s.toList.all Char.isAlphanum

/-- `isalpha(*name)`: the first byte of a C string is an ASCII letter; for the
empty string `*name` is NUL, which is not a letter. -/
def headIsAlpha (s : String) : Bool :=
  match s.toList with
  | [] => false
  | c :: _ => c.isAlpha

/-- `Console_CheckName` (lines 2163-2190): non-null, first character a letter,
all characters alphanumeric, and not already present (case-insensitively). -/
def Console_CheckName {α : Type} (reg : List (MirvCalc α)) (name : Option String) : Bool :=
  match name with
  | none => false
  | some s =>
    if !headIsAlpha s then false
    else if !StringIsAlNum s then false
    else if (GetByName reg s).isSome then false
    else true

/-- The factory pattern shared by every `New*Calc` (e.g. `NewValueCalc`,
lines 2040-2055): reject a non-null invalid name; otherwise build the node,
and iff it is named, `AddRef` it and push it into the registry list.
Returns (created node or null, updated registry). -/
def NewValueCalc {α : Type} (reg : List (MirvCalc α)) (name : Option String) (v : α) :
    Option (MirvCalc α) × List (MirvCalc α) :=
  if name.isSome && !Console_CheckName reg name then
    (none, reg)
  else
    let result0 := mkMirvCalc name v
    if name.isSome then
      let result := { result0 with refCount := result0.refCount + 1 }
      (some result, reg ++ [result])
    else
      (some result0, reg)

/-- `Console_Remove` (lines 2143-2161): locate the first case-insensitive match;
if found and its reference count is exactly 1, release it and erase it from the
registry; otherwise ("still in use" / "not found") leave everything unchanged.
Returns (removal happened, updated registry). -/
def Console_Remove {α : Type} : List (MirvCalc α) → String → Bool × List (MirvCalc α)
  | [], _ => (false, [])
  | c :: rest, name =>
    if striEq name c.name then
      if c.refCount = 1 then (true, rest) else (false, c :: rest)
    else
      let r := Console_Remove rest name
      (r.1, c :: r.2)

/-- The identifier validity rule in the spec's words (§6): non-empty, first
character an ASCII letter, all characters ASCII letters or digits, and no
case-insensitively equal name already in this family's registry. Stated
separately from `Console_CheckName` for the refinement comparison. -/
def specValidName {α : Type} (reg : List (MirvCalc α)) (s : String) : Bool :=
  !s.toList.isEmpty &&
  (match s.toList with
   | [] => false
   | c :: _ => c.isAlpha) &&
  s.toList.all Char.isAlphanum &&
  !(reg.any (fun c => striEq s c.name))

/-! ## Offset node (`CMirvVecAngOffsetCalc`, lines 1123-1256)

The angle pipeline (`Afx::Math::Quaternion`, `QREulerAngles`, `QEulerAngles`,
`MakeVectors`) is not under `src/`; evaluation is therefore parametrised by

* `MakeVectorsFn` — `Afx::Math::MakeVectors yaw pitch roll` producing the
  `forward`/`right`/`up` basis vectors, and
* `ComposeAnglesFn` — the full rotation composition
  `(Quat(parent) * Quat(offset)).ToQREulerAngles().ToQEulerAngles()` together
  with the `Roll→z`, `Pitch→x`, `Yaw→y` component re-assignment done at
  lines 1211-1213 / 1229-1231. -/

/-- Signature of `Afx::Math::MakeVectors` (called as `MakeVectors (ang.z) (ang.x)
(ang.y)`), returning `(forward, right, up)`. -/
abbrev MakeVectorsFn := ℚ → ℚ → ℚ → V3 ℚ × V3 ℚ × V3 ℚ

/-- Signature of the quaternion-based angle composition of parent and offset
angles (lines 1206-1213 / 1224-1231). -/
abbrev ComposeAnglesFn := A3 ℚ → A3 ℚ → A3 ℚ

/-- Lines 1191-1197 / 1233-1237: translate `pv` by `ov` along the basis obtained
from `MakeVectors (ang.z) (ang.x) (ang.y)`:
`out = pv + ov.x * forward - ov.y * right + ov.z * up` componentwise. -/
def offsetTranslate (mv : MakeVectorsFn) (pv : V3 ℚ) (ang : A3 ℚ) (ov : V3 ℚ) : V3 ℚ :=
  let fru := mv ang.z ang.x ang.y
  ⟨pv.x + ov.x * fru.1.x - ov.y * fru.2.1.x + ov.z * fru.2.2.x,
   pv.y + ov.x * fru.1.y - ov.y * fru.2.1.y + ov.z * fru.2.2.y,
   pv.z + ov.x * fru.1.z - ov.y * fru.2.1.z + ov.z * fru.2.2.z⟩

/-- `CMirvVecAngOffsetCalc::CalcVecAng` (lines 1176-1243). Operand results are
passed in (`none` = the operand's `CalcVecAng` returned false). Legacy mode
translates along the parent basis and composes rotations only when the offset
component is non-zero; current mode always composes rotations first and then
translates along the resulting basis. -/
def offsetCalcVecAng (mv : MakeVectorsFn) (ca : ComposeAnglesFn) (legacyMethod : Bool)
    (parentRes offsetRes : Option (V3 ℚ × A3 ℚ)) : Option (V3 ℚ × A3 ℚ) :=
  match parentRes with
  | none => none
  | some (pv, pa) =>
    match offsetRes with
    | none => none
    | some (ov, oa) =>
      if legacyMethod then
        let outV := if ov.x ≠ 0 ∨ ov.y ≠ 0 ∨ ov.z ≠ 0 then offsetTranslate mv pv pa ov else pv
        let outA := if oa.x ≠ 0 ∨ oa.y ≠ 0 ∨ oa.z ≠ 0 then ca pa oa else pa
        some (outV, outA)
      else
        let outA := ca pa oa
        some (offsetTranslate mv pv outA ov, outA)

/-- Operand invocations made by `CMirvVecAngOffsetCalc::CalcVecAng`
(lines 1182-1183): `calcedParent = m_Parent->CalcVecAng(...)` always runs, and
`calcedOffset = calcedParent && m_Offset->CalcVecAng(...)` short-circuits, so
the offset operand is invoked iff the parent call succeeded. -/
def offsetCalcCalls (parentSucceeds : Bool) : List String :=
  "parent" :: (if parentSucceeds then ["offset"] else [])

/-- Operand invocations made by `CMirvVecAngSmoothCalc::CalcVecAng`
(lines 1548-1549): `m_Parent->CalcVecAng(...)` and `m_TrackHandle->CalcHandle(...)`
are two separate statements, both executed unconditionally. -/
def smoothCalcCalls (_parentSucceeds : Bool) : List String :=
  ["parent", "trackHandle"]

/-! ## Handle-composition VecAng node (`CMirvVecAngHandleCalcEx`, lines 1258-1355) -/

/-- The slice of `SOURCESDK::C_BaseEntity_csgo` read by `CalcVecAng`. -/
structure BaseEnt where
  eyePosition : V3 ℚ
  eyeAngles : A3 ℚ
deriving DecidableEq

/-- The slice of `SOURCESDK::IClientEntity_csgo` read by `CalcVecAng`;
`baseEntity = none` models `GetBaseEntity()` returning a null pointer. -/
structure ClientEnt where
  baseEntity : Option BaseEnt
  absOrigin : V3 ℚ
  absAngles : A3 ℚ
deriving DecidableEq

/-- Dereference a possibly-null pointer: `.error` is a null-pointer dereference. -/
def deref {α : Type} : Option α → Except Unit α
  | some a => Except.ok a
  | none => Except.error ()

/-- `CMirvVecAngHandleCalcEx::CalcVecAng` (lines 1328-1343).
`getClientEntityFromHandle` stands for
`g_Entitylist_csgo->GetClientEntityFromHandle`; the guard and the two reads
mirror the source, and reading through a null `ce`/`be` pointer is `.error`. -/
def handleExCalcVecAng (eyeVec eyeAng : Bool) (handleRes : Option ℤ)
    (getClientEntityFromHandle : ℤ → Option ClientEnt) :
    Except Unit (Option (V3 ℚ × A3 ℚ)) :=
  let ce : Option ClientEnt :=
    match handleRes with
    | some h => getClientEntityFromHandle h
    | none => none
  let be : Option BaseEnt :=
    match ce with
    | some e => e.baseEntity
    | none => none
  if be.isSome || (ce.isSome && !eyeVec && eyeAng) then
    match (if eyeVec then Except.map BaseEnt.eyePosition (deref be)
           else Except.map ClientEnt.absOrigin (deref ce)) with
    | Except.error e => Except.error e
    | Except.ok v =>
      match (if eyeAng then Except.map BaseEnt.eyeAngles (deref be)
             else Except.map ClientEnt.absAngles (deref ce)) with
      | Except.error e => Except.error e
      | Except.ok a => Except.ok (some (v, a))
  else
    Except.ok none

/-! ## Trajectory smoother (`CalcSmooth`, lines 26-288)

The loop state is `(deltaT, lastPos, lastVel)`; `targetPos`, `LimitVelocity` and
`LimitAcceleration` are loop-invariant parameters. The `while (0 < deltaT)` body
(lines 110-287) has three branches: two velocity-over-limit corrections and the
normal three-phase profile. The normal branch's intermediate quantities are
given their own definitions below so that theorems can speak about them; their
bodies transcribe lines 155-286 statement by statement. -/

/-- Modelled from the spec: `AFX_MATH_EPS` is defined in a shared math header
that is not under `src/`; the spec calls it "a small fixed epsilon" used to snap
residual position/velocity error to exact completion. -/
noncomputable def AFX_MATH_EPS : ℝ := 1 / 1000000

/-- The state threaded through the `CalcSmooth` loop: remaining elapsed time and
the two by-reference channel variables. -/
structure SmState where
  deltaT : ℝ
  lastPos : ℝ
  lastVel : ℝ

/-- The inputs of one normal-branch pass: call parameters (`target`, `lv` =
`LimitVelocity`, `la` = `LimitAcceleration`) plus the loop state on entry. -/
structure SmIn where
  target : ℝ
  lv : ℝ
  la : ℝ
  dT : ℝ
  pos : ℝ
  vel : ℝ

/-- Line 174: `deltaPos = targetPos - lastPos`. -/
noncomputable def dPos (p : SmIn) : ℝ := p.target - p.pos

/-- Line 176: `dir = 0 < lastVel ? 1 : (0 > lastVel ? -1 : (0 <= deltaPos ? 1 : -1))`. -/
noncomputable def sdir (p : SmIn) : ℝ :=
  if 0 < p.vel then 1 else if 0 > p.vel then -1 else if 0 ≤ dPos p then 1 else -1

/-- Line 177: `phase3T = lastVel / (dir * LimitAcceleration)` (Solving Step 1). -/
noncomputable def p3a (p : SmIn) : ℝ := p.vel / (sdir p * p.la)

/-- Line 179: `resultDeltaPos` of the immediate full stop. -/
noncomputable def res1 (p : SmIn) : ℝ :=
  p.vel * p3a p - sdir p * p.la / 2 * p3a p * p3a p

/-- Lines 181-184: the guard that enters Solving Step 2. -/
def cond1 (p : SmIn) : Prop :=
  0 < sdir p ∧ 0 < dPos p - res1 p ∨ 0 > sdir p ∧ 0 > dPos p - res1 p

/-- Lines 228-229: `temp1 = (2.0 * lastVel) / (dir * LimitAcceleration)`. -/
noncomputable def temp1 (p : SmIn) : ℝ := 2 * p.vel / (sdir p * p.la)

/-- The discriminant under the square root of lines 231-233. -/
noncomputable def disc (p : SmIn) : ℝ :=
  temp1 p * temp1 p
    - 4 * (-dPos p + p.vel * p3a p - sdir p * p.la / 2 * p3a p * p3a p) / (sdir p * p.la)

/-- Lines 231-233: `phase1T_2d1`, the position-limited root. -/
noncomputable def p1d1 (p : SmIn) : ℝ := 1 / 2 * (-temp1 p + Real.sqrt (disc p))

/-- Line 235: `phase1T_2d2`, the velocity-limited bound. -/
noncomputable def p1d2 (p : SmIn) : ℝ := (sdir p * p.lv - p.vel) / (sdir p * p.la)

open Classical in
/-- Line 237 (`phase1T = min(...)`), and `phase1T = 0` when Step 2 is skipped. -/
noncomputable def phase1 (p : SmIn) : ℝ :=
  if cond1 p then min (p1d1 p) (p1d2 p) else 0

open Classical in
/-- Line 238 (`phase3T += phase1T`), and `phase3T` unchanged when Step 2 is skipped. -/
noncomputable def phase3 (p : SmIn) : ℝ :=
  if cond1 p then p3a p + phase1 p else p3a p

/-- Lines 240-241: `resultDeltaPos` recomputed after Step 2. -/
noncomputable def res2 (p : SmIn) : ℝ :=
  p.vel * phase1 p + sdir p * p.la / 2 * phase1 p * phase1 p
    + (p.vel + sdir p * p.la * phase1 p) * phase3 p
    - sdir p * p.la / 2 * phase3 p * phase3 p

/-- Lines 243-246: the guard that enters Solving Step 3 (reached only from Step 2). -/
def cond2 (p : SmIn) : Prop :=
  cond1 p ∧ (0 < sdir p ∧ 0 < dPos p - res2 p ∨ 0 > sdir p ∧ 0 > dPos p - res2 p)

/-- Line 261: `temp2 = lastVel + dir * LimitAcceleration * phase1T`. -/
noncomputable def temp2 (p : SmIn) : ℝ := p.vel + sdir p * p.la * phase1 p

open Classical in
/-- Lines 263-266: `phase2T`, set only in Step 3 and only when `temp2` is non-zero. -/
noncomputable def phase2 (p : SmIn) : ℝ :=
  if cond2 p ∧ temp2 p ≠ 0 then
    (dPos p - p.vel * phase1 p - sdir p * p.la / 2 * phase1 p * phase1 p
      - temp2 p * phase3 p + sdir p * p.la / 2 * phase3 p * phase3 p) / temp2 p
  else 0

/-- Line 272: the clamped `phase3T` ("Limit by deltaT", truncated first). -/
noncomputable def cl3 (p : SmIn) : ℝ :=
  max (min (phase1 p + phase2 p + phase3 p) p.dT - phase2 p - phase1 p) 0

/-- Line 273: the clamped `phase2T`. -/
noncomputable def cl2 (p : SmIn) : ℝ :=
  max (min (phase1 p + phase2 p) p.dT - phase1 p) 0

/-- Line 274: the clamped `phase1T`. -/
noncomputable def cl1 (p : SmIn) : ℝ := min (phase1 p) p.dT

/-- Lines 277-279: `lastPos` integrated over the clamped phases. -/
noncomputable def newPos (p : SmIn) : ℝ :=
  p.pos + p.vel * cl1 p + sdir p * p.la / 2 * cl1 p * cl1 p
    + (p.vel + sdir p * p.la * cl1 p) * cl2 p
    + (p.vel + sdir p * p.la * cl1 p) * cl3 p
    - sdir p * p.la / 2 * cl3 p * cl3 p

/-- Line 280: `lastVel` after the clamped phases. -/
noncomputable def newVel (p : SmIn) : ℝ :=
  p.vel + sdir p * p.la * cl1 p - sdir p * p.la * cl3 p

/-- Lines 281-285: `deltaT` minus the consumed time, snapped to `0` once both the
position error and the velocity are within `AFX_MATH_EPS`. -/
noncomputable def newDT (p : SmIn) : ℝ :=
  if |p.target - newPos p| ≤ AFX_MATH_EPS ∧ |0 - newVel p| ≤ AFX_MATH_EPS then 0
  else p.dT - (cl1 p + cl2 p + cl3 p)

/-- One pass of the `while (0 < deltaT)` body (lines 110-287): the two
velocity-over-limit corrections (lines 114-154) or the normal profile. -/
noncomputable def calcSmoothBody (target lv la : ℝ) (s : SmState) : SmState :=
  if s.lastVel > lv then
    let phaseT := min ((lv - s.lastVel) / (-la)) s.deltaT
    ⟨s.deltaT - phaseT,
     s.lastPos + s.lastVel * phaseT - la / 2 * phaseT * phaseT,
     s.lastVel + (-la) * phaseT⟩
  else if s.lastVel < -lv then
    let phaseT := min ((-lv - s.lastVel) / la) s.deltaT
    ⟨s.deltaT - phaseT,
     s.lastPos + s.lastVel * phaseT + la / 2 * phaseT * phaseT,
     s.lastVel + la * phaseT⟩
  else
    let p : SmIn := ⟨target, lv, la, s.deltaT, s.lastPos, s.lastVel⟩
    ⟨newDT p, newPos p, newVel p⟩

/-- The `while (0 < deltaT)` loop with explicit fuel: each step runs the body iff
time remains. -/
noncomputable def calcSmoothLoop (target lv la : ℝ) : ℕ → SmState → SmState
  | 0, s => s
  | n + 1, s =>
    if 0 < s.deltaT then calcSmoothLoop target lv la n (calcSmoothBody target lv la s)
    else s

/-- `CalcSmooth` (lines 26-288): early-out for `deltaT <= 0`, then the loop.
In exact arithmetic the loop needs at most 3 passes (see the C4 theorem), so
fuel 3 realizes the unbounded `while`. Returns the updated `(lastPos, lastVel)`. -/
noncomputable def CalcSmooth (deltaT targetPos lastPos lastVel lv la : ℝ) : ℝ × ℝ :=
  if deltaT ≤ 0 then (lastPos, lastVel)
  else
    let s := calcSmoothLoop targetPos lv la 3 ⟨deltaT, lastPos, lastVel⟩
    (s.lastPos, s.lastVel)

/-! ## Smooth node (`CMirvVecAngSmoothCalc`, lines 1517-1668) -/

/-- Member defaults of `CMirvVecAngSmoothCalc` (lines 1648-1667); its
`Console_Edit` delegates to the base class (lines 1536-1539), so these are
never reassigned. -/
noncomputable def limitVelocityX : ℝ := 6000
/-- See `limitVelocityX`. -/
noncomputable def limitAccelerationX : ℝ := 6000
/-- See `limitVelocityX`. -/
noncomputable def limitVelocityY : ℝ := 6000
/-- See `limitVelocityX`. -/
noncomputable def limitAccelerationY : ℝ := 6000
/-- See `limitVelocityX`. -/
noncomputable def limitVelocityZ : ℝ := 6000
/-- See `limitVelocityX`. -/
noncomputable def limitAccelerationZ : ℝ := 6000
/-- See `limitVelocityX`. -/
noncomputable def limitVelocityRx : ℝ := 360
/-- See `limitVelocityX`. -/
noncomputable def limitAccelerationRx : ℝ := 90
/-- See `limitVelocityX`. -/
noncomputable def limitVelocityRy : ℝ := 360
/-- See `limitVelocityX`. -/
noncomputable def limitAccelerationRy : ℝ := 90
/-- See `limitVelocityX`. -/
noncomputable def limitVelocityRz : ℝ := 360
/-- See `limitVelocityX`. -/
noncomputable def limitAccelerationRz : ℝ := 90

/-- The persistent members of `CMirvVecAngSmoothCalc` (lines 1637-1660):
the reset flag, the last tracked handle, and last value/velocity per channel. -/
structure SmoothNodeState where
  reset : Bool
  lastHandle : ℤ
  lastX : ℝ
  lastY : ℝ
  lastZ : ℝ
  xVelocity : ℝ
  yVelocity : ℝ
  zVelocity : ℝ
  lastYPitch : ℝ
  lastZYaw : ℝ
  lastXRoll : ℝ
  yPitchVelocity : ℝ
  zYawVelocity : ℝ
  xRollVelocity : ℝ

/-- `CMirvVecAngSmoothCalc::CalcVecAng` (lines 1541-1624). Both operand results
are taken unconditionally (two separate calls in the source); `deltaT` stands
for the host's `absoluteframetime`. Returns the produced value (`none` on
failure) and the updated node state. -/
noncomputable def smoothCalcVecAng (st : SmoothNodeState)
    (parentRes : Option (V3 ℝ × A3 ℝ)) (handleRes : Option ℤ) (deltaT : ℝ) :
    Option (V3 ℝ × A3 ℝ) × SmoothNodeState :=
  let sameHandle : Bool :=
    match parentRes, handleRes with
    | some _, some h => decide (st.lastHandle = h)
    | _, _ => false
  let reset1 : Bool := st.reset || !sameHandle
  let lastHandle1 : ℤ :=
    match handleRes with
    | some h => h
    | none => st.lastHandle
  match parentRes, handleRes with
  | some (pv, pa), some _ =>
    if reset1 then
      (some (pv, pa),
       { reset := false, lastHandle := lastHandle1,
         lastX := pv.x, lastY := pv.y, lastZ := pv.z,
         xVelocity := 0, yVelocity := 0, zVelocity := 0,
         lastXRoll := pa.x, lastYPitch := pa.y, lastZYaw := pa.z,
         xRollVelocity := 0, yPitchVelocity := 0, zYawVelocity := 0 })
    else
      let reaimYPitch := wrapDelta (pa.y - st.lastYPitch)
      let reaimZYaw := wrapDelta (pa.z - st.lastZYaw)
      let reaimXRoll := wrapDelta (pa.x - st.lastXRoll)
      let rYP := CalcSmooth deltaT (st.lastYPitch + reaimYPitch) st.lastYPitch
        st.yPitchVelocity limitVelocityRy limitAccelerationRy
      let rZY := CalcSmooth deltaT (st.lastZYaw + reaimZYaw) st.lastZYaw
        st.zYawVelocity limitVelocityRz limitAccelerationRz
      let rXR := CalcSmooth deltaT (st.lastXRoll + reaimXRoll) st.lastXRoll
        st.xRollVelocity limitVelocityRx limitAccelerationRx
      let rX := CalcSmooth deltaT pv.x st.lastX st.xVelocity
        limitVelocityX limitAccelerationX
      let rY := CalcSmooth deltaT pv.y st.lastY st.yVelocity
        limitVelocityY limitAccelerationY
      let rZ := CalcSmooth deltaT pv.z st.lastZ st.zVelocity
        limitVelocityZ limitAccelerationZ
      (some (⟨rX.1, rY.1, rZ.1⟩, ⟨rXR.1, rYP.1, rZY.1⟩),
       { reset := reset1, lastHandle := lastHandle1,
         lastX := rX.1, lastY := rY.1, lastZ := rZ.1,
         xVelocity := rX.2, yVelocity := rY.2, zVelocity := rZ.2,
         lastXRoll := rXR.1, lastYPitch := rYP.1, lastZYaw := rZY.1,
         xRollVelocity := rXR.2, yPitchVelocity := rYP.2, zYawVelocity := rZY.2 })
  | _, _ => (none, { st with reset := reset1, lastHandle := lastHandle1 })

/-- Modelled from the spec: a rotation composition admissible for the missing
`Afx::Math` quaternion/Euler pipeline — spec §8 pins down that both Offset modes
reproduce Euler-angle round-tripping via quaternion conversion exactly, so
composing with the zero rotation returns the parent angles unchanged. -/
def specComposeAngles (p o : A3 ℚ) : A3 ℚ :=
  if o.x = 0 ∧ o.y = 0 ∧ o.z = 0 then p else ⟨p.x + o.x, p.y + o.y, p.z + o.z⟩

/-- Modelled from the spec: a concrete stand-in basis for the missing
`Afx::Math::MakeVectors` (the zero-offset theorem holds for every basis). -/
def specMakeVectors : MakeVectorsFn :=
  fun _ _ _ => (⟨1, 0, 0⟩, ⟨0, 1, 0⟩, ⟨0, 0, 1⟩)

/-! # Theorems -/

/-! ## C1 — angle re-wrap of the Smooth node's rotation channels -/

/-- C1 (amended): the Smooth node's re-wrap `wrapDelta` (lines 1595-1597) is
congruent to the raw delta modulo 360 for every real delta, and lands in
`[-180, 180)` for every delta `≥ -180` — but not for deltas below `-180`,
because the C `fmod` rounds toward zero (see the counterexample); in particular
a target change of `+350` degrees is smoothed as a `-10` degree step. -/
theorem c1_wrap_amended :
    (∀ d : ℝ, ∃ k : ℤ, wrapDelta d = d - 360 * k) ∧
    (∀ d : ℝ, -180 ≤ d → -180 ≤ wrapDelta d ∧ wrapDelta d < 180) ∧
    wrapDelta (350 : ℝ) = -10 := by
  refine ⟨?_, ?_, ?_⟩
  · intro d
    exact ⟨ctrunc ((d + 180) / 360), by unfold wrapDelta fmodC; ring⟩
  · intro d hd
    have hx : (0 : ℝ) ≤ (d + 180) / 360 := by
      apply div_nonneg (by linarith) (by norm_num)
    have h1 : ((⌊(d + 180) / 360⌋ : ℝ)) * 360 ≤ d + 180 :=
      (le_div_iff₀ (by norm_num)).1 (Int.floor_le _)
    have h2 : d + 180 < ((⌊(d + 180) / 360⌋ : ℝ) + 1) * 360 :=
      (div_lt_iff₀ (by norm_num)).1 (Int.lt_floor_add_one _)
    unfold wrapDelta fmodC ctrunc
    rw [if_pos hx]
    constructor <;> linarith
  · have h0 : (0 : ℝ) ≤ ((350 : ℝ) + 180) / 360 := by norm_num
    have hfl : ⌊((350 : ℝ) + 180) / 360⌋ = 1 := by
      rw [Int.floor_eq_iff]
      norm_num
    unfold wrapDelta fmodC ctrunc
    rw [if_pos h0, hfl]
    norm_num

/-- Witness for C1 at the concrete delta `+350`. -/
theorem c1_wrap_witness :
    (-180 : ℝ) ≤ 350 ∧ (-180 ≤ wrapDelta (350 : ℝ) ∧ wrapDelta (350 : ℝ) < 180) :=
  ⟨by norm_num, c1_wrap_amended.2.1 350 (by norm_num)⟩

/-- C1 counterexample: the raw delta `-350` (parent target angle `-350`, last
smoothed angle `0`) re-wraps to `-350` itself, which is not in `[-180, 180)`,
refuting "for every real delta d the wrapped delta lies in [-180, 180)". -/
theorem c1_wrap_counterexample :
    wrapDelta (-350 : ℝ) = -350 ∧ ¬ (-180 ≤ wrapDelta (-350 : ℝ)) := by
  have hneg : ¬ (0 : ℝ) ≤ ((-350 : ℝ) + 180) / 360 := by norm_num
  have hcl : ⌈((-350 : ℝ) + 180) / 360⌉ = 0 := by
    rw [Int.ceil_eq_iff]
    norm_num
  have : wrapDelta (-350 : ℝ) = -350 := by
    unfold wrapDelta fmodC ctrunc
    rw [if_neg hneg, hcl]
    norm_num
  exact ⟨this, by rw [this]; norm_num⟩

/-! ## C2 — Offset node with the zero offset -/

/-- C2: in both the legacy and the current composition mode, when the parent and
offset operands both succeed and the offset is the zero pose, the Offset node's
`CalcVecAng` succeeds and returns exactly the parent position and angles. The
angle pipeline is any `ComposeAnglesFn` with the spec's exact round-trip at the
zero rotation (spec §8); the basis function is arbitrary. -/
theorem c2_offset_zero_identity (mv : MakeVectorsFn) (ca : ComposeAnglesFn)
    (hca : ∀ a : A3 ℚ, ca a ⟨0, 0, 0⟩ = a) (legacyMethod : Bool) (pv : V3 ℚ) (pa : A3 ℚ) :
    offsetCalcVecAng mv ca legacyMethod (some (pv, pa)) (some (⟨0, 0, 0⟩, ⟨0, 0, 0⟩)) =
      some (pv, pa) := by
  obtain ⟨px, py, pz⟩ := pv
  cases legacyMethod with
  | false => simp [offsetCalcVecAng, hca, offsetTranslate]
  | true => simp [offsetCalcVecAng, offsetTranslate]

/-- Witness for C2 at a concrete input in legacy mode, with the spec-modelled
pipeline stand-ins. -/
theorem c2_offset_zero_identity_witness :
    (∀ a : A3 ℚ, specComposeAngles a ⟨0, 0, 0⟩ = a) ∧
    offsetCalcVecAng specMakeVectors specComposeAngles true
        (some (⟨1, 2, 3⟩, ⟨4, 5, 6⟩)) (some (⟨0, 0, 0⟩, ⟨0, 0, 0⟩)) =
      some (⟨1, 2, 3⟩, ⟨4, 5, 6⟩) := by
  have hca : ∀ a : A3 ℚ, specComposeAngles a ⟨0, 0, 0⟩ = a := by
    intro a
    simp [specComposeAngles]
  exact ⟨hca, c2_offset_zero_identity specMakeVectors specComposeAngles hca true ⟨1, 2, 3⟩ ⟨4, 5, 6⟩⟩

/-! ## C5 — operand evaluation order and short-circuiting -/

/-- C5 counterexample: with a failing parent the Smooth node still invokes its
track-handle operand — both operand calls are unconditional statements
(lines 1548-1549) — and even records the returned handle into its state,
refuting "the Smooth node must not evaluate its track-handle operand when its
parent fails". -/
theorem c5_shortcircuit_counterexample :
    smoothCalcCalls false = ["parent", "trackHandle"] ∧
    (smoothCalcVecAng ⟨false, 0, 0, 0, 0, 0, 0, 0, 0, 0, 0, 0, 0, 0⟩
        none (some 7) 1).2.lastHandle = 7 := by
  exact ⟨rfl, rfl⟩

/-- C5 (amended): the Offset node evaluates its parent first and short-circuits
— the offset operand is invoked iff the parent succeeded, and a failing parent
makes the node fail; the Smooth node, however, invokes both its parent and its
track-handle operand unconditionally (recording the track handle even when the
parent fails), short-circuiting only in its result. -/
theorem c5_shortcircuit_amended :
    offsetCalcCalls false = ["parent"] ∧
    offsetCalcCalls true = ["parent", "offset"] ∧
    (∀ (mv : MakeVectorsFn) (ca : ComposeAnglesFn) (l : Bool) (o : Option (V3 ℚ × A3 ℚ)),
      offsetCalcVecAng mv ca l none o = none) ∧
    smoothCalcCalls false = ["parent", "trackHandle"] ∧
    (∀ (st : SmoothNodeState) (h : Option ℤ) (dT : ℝ),
      (smoothCalcVecAng st none h dT).1 = none) ∧
    (∀ (st : SmoothNodeState) (h : ℤ) (dT : ℝ),
      (smoothCalcVecAng st none (some h) dT).2.lastHandle = h) := by
  refine ⟨rfl, rfl, fun mv ca l o => rfl, rfl, ?_, fun st h dT => rfl⟩
  intro st h dT
  cases h with
  | none => rfl
  | some h => rfl

/-! ## C6 — Smooth node reset semantics -/

/-- C6: on a successful evaluation with the reset flag pending (first evaluation)
or with a tracked-handle identity different from the stored one, the Smooth node
returns exactly the parent pose, stores it, zeroes all six channel velocities and
clears the reset flag — regardless of the previously stored velocities, and
invoking no smoothing. -/
theorem c6_smooth_reset (st : SmoothNodeState) (pv : V3 ℝ) (pa : A3 ℝ) (h : ℤ) (dT : ℝ)
    (hr : st.reset = true ∨ h ≠ st.lastHandle) :
    smoothCalcVecAng st (some (pv, pa)) (some h) dT =
      (some (pv, pa),
       { reset := false, lastHandle := h,
         lastX := pv.x, lastY := pv.y, lastZ := pv.z,
         xVelocity := 0, yVelocity := 0, zVelocity := 0,
         lastXRoll := pa.x, lastYPitch := pa.y, lastZYaw := pa.z,
         xRollVelocity := 0, yPitchVelocity := 0, zYawVelocity := 0 }) := by
  have hreset : (st.reset || !(decide (st.lastHandle = h))) = true := by
    rcases hr with hr | hr
    · simp [hr]
    · have hne : st.lastHandle ≠ h := fun e => hr e.symm
      simp [hne]
  simp [smoothCalcVecAng, hreset]

/-- Witness for C6: a state with non-zero stored velocities and a pending reset
snaps to the parent pose with zero velocities. -/
theorem c6_smooth_reset_witness :
    ((⟨true, 0, 0, 0, 0, 5, 5, 5, 0, 0, 0, 5, 5, 5⟩ : SmoothNodeState).reset = true ∨
      (7 : ℤ) ≠ (⟨true, 0, 0, 0, 0, 5, 5, 5, 0, 0, 0, 5, 5, 5⟩ : SmoothNodeState).lastHandle) ∧
    smoothCalcVecAng ⟨true, 0, 0, 0, 0, 5, 5, 5, 0, 0, 0, 5, 5, 5⟩
        (some (⟨1, 2, 3⟩, ⟨4, 5, 6⟩)) (some 7) 1 =
      (some (⟨1, 2, 3⟩, ⟨4, 5, 6⟩), ⟨false, 7, 1, 2, 3, 0, 0, 0, 5, 6, 4, 0, 0, 0⟩) :=
  ⟨Or.inl rfl,
   c6_smooth_reset ⟨true, 0, 0, 0, 0, 5, 5, 5, 0, 0, 0, 5, 5, 5⟩ ⟨1, 2, 3⟩ ⟨4, 5, 6⟩ 7 1
     (Or.inl rfl)⟩

/-! ## C9 — null-safety of the handle-composition VecAng node -/

/-- C9: with `eyeVec = false`, `eyeAng = true`, a resolvable handle and a client
entity whose `GetBaseEntity()` is null, the success branch of
`CMirvVecAngHandleCalcEx::CalcVecAng` (guard `be || ce && !m_EyeVec && m_EyeAng`,
line 1335) is entered and `be->EyeAngles()` dereferences the null base-entity
pointer (line 1338). -/
theorem c9_handleEx_null_deref :
    handleExCalcVecAng false true (some 0)
      (fun _ => some ⟨none, ⟨0, 0, 0⟩, ⟨0, 0, 0⟩⟩) = Except.error () := by
  rfl

/-! ## C7, C8, C10 — registries: name checking, removal, reference counts -/

/-- The success of a registry lookup is the same as a case-insensitive
membership test. -/
theorem getByName_isSome_any {α : Type} (reg : List (MirvCalc α)) (s : String) :
    (GetByName reg s).isSome = reg.any (fun c => striEq s c.name) := by
  induction reg with
  | nil => rfl
  | cons c rest ih =>
    cases hs : striEq s c.name with
    | true => simp [GetByName, hs]
    | false => simp [GetByName, hs, ih]

/-- `Console_CheckName` computes exactly the spec's identifier validity rule:
the refinement between the code's check and the spec's wording. -/
theorem checkName_eq_specValidName {α : Type} (reg : List (MirvCalc α)) (s : String) :
    Console_CheckName reg (some s) = specValidName reg s := by
  have hchain : ∀ t : String, Console_CheckName reg (some t) =
      (headIsAlpha t && StringIsAlNum t && !(GetByName reg t).isSome) := by
    intro t
    simp only [Console_CheckName]
    rcases Bool.eq_false_or_eq_true (headIsAlpha t) with h1 | h1 <;>
      rcases Bool.eq_false_or_eq_true (StringIsAlNum t) with h2 | h2 <;>
        rcases Bool.eq_false_or_eq_true (GetByName reg t).isSome with h3 | h3 <;>
          simp [h1, h2, h3]
  rw [hchain]
  obtain ⟨data⟩ := s
  cases data with
  | nil => rfl
  | cons c rest =>
    simp only [specValidName, StringIsAlNum, headIsAlpha, String.toList, List.isEmpty_cons,
      Bool.not_false, Bool.true_and]
    rw [← getByName_isSome_any]

/-- C7: creating a node with a non-null name succeeds iff the name satisfies the
spec's validity rule against that family's registry (non-empty, first character
an ASCII letter, all characters ASCII letters or digits, no case-insensitive
duplicate in this registry — the check consults no other registry); on any
violation the factory returns null and the registry is unchanged. -/
theorem c7_create_name_check {α : Type} (reg : List (MirvCalc α)) (s : String) (v : α) :
    ((NewValueCalc reg (some s) v).1.isSome = specValidName reg s) ∧
    (specValidName reg s = false → NewValueCalc reg (some s) v = (none, reg)) := by
  have hc := checkName_eq_specValidName reg s
  constructor
  · cases hcv : Console_CheckName reg (some s) with
    | true => simp [NewValueCalc, hcv, hc.symm.trans hcv]
    | false => simp [NewValueCalc, hcv, hc.symm.trans hcv]
  · intro hs
    have hf : Console_CheckName reg (some s) = false := hc.trans hs
    simp [NewValueCalc, hf]

/-- Witness for C7: the invalid name `"1abc"` is rejected and the registry is
left unchanged. -/
theorem c7_create_name_check_witness :
    specValidName ([] : List (MirvCalc ℤ)) "1abc" = false ∧
    NewValueCalc ([] : List (MirvCalc ℤ)) (some "1abc") 0 = (none, []) :=
  ⟨rfl, (c7_create_name_check ([] : List (MirvCalc ℤ)) "1abc" 0).2 rfl⟩

/-- On failure, `Console_Remove` leaves the registry unchanged. -/
theorem consoleRemove_fail_unchanged {α : Type} (reg : List (MirvCalc α)) (name : String)
    (hf : (Console_Remove reg name).1 = false) : (Console_Remove reg name).2 = reg := by
  induction reg with
  | nil => rfl
  | cons c rest ih =>
    cases hs : striEq name c.name with
    | true =>
      by_cases hrc : c.refCount = 1
      · simp [Console_Remove, hs, hrc] at hf
      · simp [Console_Remove, hs, hrc]
    | false =>
      simp only [Console_Remove, hs, Bool.false_eq_true, if_false] at hf ⊢
      exact congrArg (c :: ·) (ih hf)

/-- `Console_Remove` succeeds iff the first case-insensitive match exists and has
reference count exactly 1. -/
theorem consoleRemove_succeeds_iff {α : Type} (reg : List (MirvCalc α)) (name : String) :
    (Console_Remove reg name).1 = true ↔
      ∃ c, GetByName reg name = some c ∧ c.refCount = 1 := by
  induction reg with
  | nil => simp [Console_Remove, GetByName]
  | cons c rest ih =>
    cases hs : striEq name c.name with
    | true =>
      by_cases hrc : c.refCount = 1 <;>
        simp [Console_Remove, hs, GetByName, hrc]
    | false =>
      simp [Console_Remove, hs, GetByName, ih]

/-- When `Console_Remove` succeeds, the updated registry is exactly the old one
with the first matching node erased (everything before it unmatched). -/
theorem consoleRemove_success_shape {α : Type} (reg : List (MirvCalc α)) (name : String)
    (hs : (Console_Remove reg name).1 = true) :
    ∃ l1 c l2, reg = l1 ++ c :: l2 ∧ (Console_Remove reg name).2 = l1 ++ l2 ∧
      striEq name c.name = true ∧ c.refCount = 1 ∧
      ∀ d ∈ l1, striEq name d.name = false := by
  induction reg with
  | nil => simp [Console_Remove] at hs
  | cons c rest ih =>
    by_cases hm : striEq name c.name
    · by_cases hrc : c.refCount = 1
      · refine ⟨[], c, rest, by simp, ?_, hm, hrc, by simp⟩
        simp [Console_Remove, hm, hrc]
      · simp [Console_Remove, hm, hrc] at hs
    · simp only [Console_Remove, hm, if_neg hm] at hs ⊢
      obtain ⟨l1, d, l2, hsplit, hres, hmd, hrc, hall⟩ := ih hs
      refine ⟨c :: l1, d, l2, by simp [hsplit], by simp [hres], hmd, hrc, ?_⟩
      intro e he
      rcases List.mem_cons.1 he with rfl | he
      · exact Bool.not_eq_true _ ▸ by simpa using hm
      · exact hall e he

/-- C8: registry removal by name succeeds iff a node with that name (matched
case-insensitively) exists and its reference count is exactly 1; on success the
registry is the old list with exactly that node erased; on failure (still in
use, or no such name) the registry — and so every node in it — is unchanged. -/
theorem c8_remove_refcount {α : Type} (reg : List (MirvCalc α)) (name : String) :
    ((Console_Remove reg name).1 = true ↔
      ∃ c, GetByName reg name = some c ∧ c.refCount = 1) ∧
    ((Console_Remove reg name).1 = false → (Console_Remove reg name).2 = reg) ∧
    ((Console_Remove reg name).1 = true →
      ∃ l1 c l2, reg = l1 ++ c :: l2 ∧ (Console_Remove reg name).2 = l1 ++ l2 ∧
        striEq name c.name = true ∧ c.refCount = 1 ∧
        ∀ d ∈ l1, striEq name d.name = false) :=
  ⟨consoleRemove_succeeds_iff reg name,
   consoleRemove_fail_unchanged reg name,
   consoleRemove_success_shape reg name⟩

/-- Witness for C8: removing a node whose reference count is 2 fails and leaves
the registry unchanged. -/
theorem c8_remove_refcount_witness :
    (Console_Remove [(⟨"a", 2, 0⟩ : MirvCalc ℤ)] "A").1 = false ∧
    (Console_Remove [(⟨"a", 2, 0⟩ : MirvCalc ℤ)] "A").2 = [⟨"a", 2, 0⟩] :=
  ⟨rfl, (c8_remove_refcount [(⟨"a", 2, 0⟩ : MirvCalc ℤ)] "A").2.1 rfl⟩

/-- C10: a factory call with a valid non-null name returns a node with reference
count exactly 1 (the registry's own reference) and appends it to the registry;
a call with a null name returns an anonymous node with reference count 0 that is
not retained in any registry. -/
theorem c10_factory_refcount {α : Type} (reg : List (MirvCalc α)) (s : String) (v : α) :
    (Console_CheckName reg (some s) = true →
      NewValueCalc reg (some s) v = (some ⟨s, 1, v⟩, reg ++ [⟨s, 1, v⟩])) ∧
    NewValueCalc reg none v = (some ⟨"(no name)", 0, v⟩, reg) := by
  constructor
  · intro hchk
    simp [NewValueCalc, hchk, mkMirvCalc]
  · simp [NewValueCalc, Console_CheckName, mkMirvCalc]

/-- Witness for C10: creating `"abc"` in the empty registry yields the node with
reference count 1, stored; the anonymous node has reference count 0, unstored. -/
theorem c10_factory_refcount_witness :
    Console_CheckName ([] : List (MirvCalc ℤ)) (some "abc") = true ∧
    NewValueCalc ([] : List (MirvCalc ℤ)) (some "abc") 5 =
      (some ⟨"abc", 1, 5⟩, [] ++ [⟨"abc", 1, 5⟩]) ∧
    NewValueCalc ([] : List (MirvCalc ℤ)) none 5 = (some ⟨"(no name)", 0, 5⟩, []) :=
  ⟨rfl, (c10_factory_refcount ([] : List (MirvCalc ℤ)) "abc" 5).1 rfl,
   (c10_factory_refcount ([] : List (MirvCalc ℤ)) "abc" 5).2⟩

/-! ## C3, C4 — `CalcSmooth` helper lemmas

`sdir p * p.la` plays the role of the signed acceleration `dir * LimitAcceleration`;
the lemmas below track sign and magnitude facts for the normal-branch quantities. -/

theorem sdir_cases (p : SmIn) : sdir p = 1 ∨ sdir p = -1 := by
  unfold sdir
  split_ifs <;> simp

theorem sdir_vel_nonneg (p : SmIn) (h : sdir p = 1) : 0 ≤ p.vel := by
  unfold sdir at h
  split_ifs at h with h1 h2 h3
  · linarith
  · norm_num at h
  · linarith
  · norm_num at h

theorem sdir_vel_nonpos (p : SmIn) (h : sdir p = -1) : p.vel ≤ 0 := by
  unfold sdir at h
  split_ifs at h with h1 h2 h3
  · norm_num at h
  · linarith
  · norm_num at h
  · linarith

theorem sdir_la_ne (p : SmIn) (hla : 0 < p.la) : sdir p * p.la ≠ 0 := by
  rcases sdir_cases p with h | h <;> rw [h]
  · simpa using hla.ne'
  · simpa using hla.ne'

theorem la_mul_p3a (p : SmIn) (hla : 0 < p.la) : sdir p * p.la * p3a p = p.vel := by
  have h := sdir_la_ne p hla
  unfold p3a
  field_simp

theorem p3a_nonneg (p : SmIn) (hla : 0 < p.la) : 0 ≤ p3a p := by
  unfold p3a
  rcases sdir_cases p with h | h
  · have hv := sdir_vel_nonneg p h
    rw [h, one_mul]
    exact div_nonneg hv hla.le
  · have hv := sdir_vel_nonpos p h
    rw [h, neg_one_mul, div_neg]
    have hd : p.vel / p.la ≤ 0 := div_nonpos_of_nonpos_of_nonneg hv hla.le
    linarith

theorem phase3_eq (p : SmIn) : phase3 p = p3a p + phase1 p := by
  unfold phase3 phase1
  split_ifs <;> ring

theorem res2_expand (p : SmIn) : res2 p =
    res1 p + 2 * p.vel * phase1 p + sdir p * p.la * phase1 p * phase1 p := by
  unfold res2 res1
  rw [phase3_eq]
  ring

theorem disc_eq (p : SmIn) :
    disc p = temp1 p * temp1 p - 4 * (res1 p - dPos p) / (sdir p * p.la) := by
  unfold disc res1
  ring

theorem disc_gt (p : SmIn) (hla : 0 < p.la) (hc : cond1 p) :
    temp1 p * temp1 p < disc p := by
  rw [disc_eq]
  have hkey : 0 < -(4 * (res1 p - dPos p) / (sdir p * p.la)) := by
    rcases sdir_cases p with h | h
    · rcases hc with ⟨_, h2⟩ | ⟨h1, _⟩
      · rw [h, one_mul]
        have h4 : 4 * (res1 p - dPos p) < 0 := by linarith
        have := div_neg_of_neg_of_pos h4 hla
        linarith
      · rw [h] at h1
        norm_num at h1
    · rcases hc with ⟨h1, _⟩ | ⟨_, h2⟩
      · rw [h] at h1
        norm_num at h1
      · rw [h, neg_one_mul]
        have h4 : 0 < 4 * (res1 p - dPos p) := by linarith
        have hneg : -p.la < 0 := by linarith
        have := div_neg_of_pos_of_neg h4 hneg
        linarith
  linarith

theorem disc_nonneg (p : SmIn) (hla : 0 < p.la) (hc : cond1 p) : 0 ≤ disc p :=
  le_trans (mul_self_nonneg _) (disc_gt p hla hc).le

theorem p1d1_pos (p : SmIn) (hla : 0 < p.la) (hc : cond1 p) : 0 < p1d1 p := by
  have hdg := disc_gt p hla hc
  have h1 : |temp1 p| < Real.sqrt (disc p) := by
    have h0 : 0 ≤ temp1 p * temp1 p := mul_self_nonneg _
    have h2 := Real.sqrt_lt_sqrt h0 hdg
    rwa [Real.sqrt_mul_self_eq_abs] at h2
  have h3 := le_abs_self (temp1 p)
  unfold p1d1
  linarith

theorem p1d2_nonneg (p : SmIn) (hla : 0 < p.la) (hvel : |p.vel| ≤ p.lv) : 0 ≤ p1d2 p := by
  have hv := abs_le.1 hvel
  unfold p1d2
  rcases sdir_cases p with h | h
  · rw [h, one_mul, one_mul]
    exact div_nonneg (by linarith) hla.le
  · rw [h, neg_one_mul, neg_one_mul, div_neg]
    have hd : (-p.lv - p.vel) / p.la ≤ 0 :=
      div_nonpos_of_nonpos_of_nonneg (by linarith) hla.le
    linarith

theorem phase1_nonneg (p : SmIn) (hla : 0 < p.la) (hvel : |p.vel| ≤ p.lv) :
    0 ≤ phase1 p := by
  unfold phase1
  split_ifs with hc
  · exact le_min (p1d1_pos p hla hc).le (p1d2_nonneg p hla hvel)
  · exact le_refl 0

theorem phase1_le_p1d2 (p : SmIn) (hla : 0 < p.la) (hvel : |p.vel| ≤ p.lv) :
    phase1 p ≤ p1d2 p := by
  unfold phase1
  split_ifs with hc
  · exact min_le_right _ _
  · exact p1d2_nonneg p hla hvel

theorem phase3_nonneg (p : SmIn) (hla : 0 < p.la) (hvel : |p.vel| ≤ p.lv) :
    0 ≤ phase3 p := by
  rw [phase3_eq]
  have := p3a_nonneg p hla
  have := phase1_nonneg p hla hvel
  linarith

/-- At the position-limited root, Step 2 lands exactly on the target:
`res2 = deltaPos` when `phase1T = phase1T_2d1`. -/
theorem quad_identity (p : SmIn) (hla : 0 < p.la) (hc : cond1 p)
    (hp : phase1 p = p1d1 p) : res2 p = dPos p := by
  have hane := sdir_la_ne p hla
  have hd0 := disc_nonneg p hla hc
  have hs : Real.sqrt (disc p) * Real.sqrt (disc p) = disc p := Real.mul_self_sqrt hd0
  have hT : sdir p * p.la * temp1 p = 2 * p.vel := by
    unfold temp1
    field_simp
  have hD : sdir p * p.la * disc p =
      sdir p * p.la * (temp1 p * temp1 p) - 4 * (res1 p - dPos p) := by
    rw [disc_eq]
    field_simp
    ring
  rw [res2_expand, hp]
  unfold p1d1
  linear_combination (1 / 4 : ℝ) * hD + (sdir p * p.la / 4) * hs +
    (-(Real.sqrt (disc p) - temp1 p) / 2) * hT

/-- Step 3 is entered only when Step 2 was velocity-limited. -/
theorem phase1_eq_p1d2_of_cond2 (p : SmIn) (hla : 0 < p.la) (hc2 : cond2 p) :
    phase1 p = p1d2 p := by
  rcases le_total (p1d1 p) (p1d2 p) with h | h
  · exfalso
    have hp : phase1 p = p1d1 p := by
      unfold phase1
      rw [if_pos hc2.1]
      exact min_eq_left h
    have hres := quad_identity p hla hc2.1 hp
    rcases hc2.2 with ⟨_, h2⟩ | ⟨_, h2⟩ <;> rw [hres] at h2 <;> simp at h2
  · unfold phase1
    rw [if_pos hc2.1]
    exact min_eq_right h

theorem temp2_eq_of_cond2 (p : SmIn) (hla : 0 < p.la) (hc2 : cond2 p) :
    temp2 p = sdir p * p.lv := by
  have hane := sdir_la_ne p hla
  unfold temp2
  rw [phase1_eq_p1d2_of_cond2 p hla hc2]
  unfold p1d2
  field_simp

theorem temp2_ne_of_cond2 (p : SmIn) (hla : 0 < p.la) (hlv : 0 < p.lv) (hc2 : cond2 p) :
    temp2 p ≠ 0 := by
  rw [temp2_eq_of_cond2 p hla hc2]
  rcases sdir_cases p with h | h <;> rw [h]
  · simpa using hlv.ne'
  · simpa using hlv.ne'

/-- The Step-3 numerator is the residual displacement `deltaPos - res2`. -/
theorem phase2_num_eq (p : SmIn) :
    dPos p - p.vel * phase1 p - sdir p * p.la / 2 * phase1 p * phase1 p
      - temp2 p * phase3 p + sdir p * p.la / 2 * phase3 p * phase3 p =
    dPos p - res2 p := by
  unfold res2 temp2
  ring

theorem temp2_mul_phase2 (p : SmIn) (hla : 0 < p.la) (hlv : 0 < p.lv) (hc2 : cond2 p) :
    temp2 p * phase2 p = dPos p - res2 p := by
  have hne := temp2_ne_of_cond2 p hla hlv hc2
  unfold phase2
  rw [if_pos ⟨hc2, hne⟩, phase2_num_eq, mul_comm, div_mul_cancel₀ _ hne]

theorem phase2_nonneg (p : SmIn) (hla : 0 < p.la) (hlv : 0 < p.lv) : 0 ≤ phase2 p := by
  by_cases hc2 : cond2 p
  · have hne := temp2_ne_of_cond2 p hla hlv hc2
    have hmul := temp2_mul_phase2 p hla hlv hc2
    have ht2 := temp2_eq_of_cond2 p hla hc2
    rcases sdir_cases p with h | h
    · have ht2' : temp2 p = p.lv := by rw [ht2, h, one_mul]
      rcases hc2.2 with ⟨_, h2⟩ | ⟨h1, _⟩
      · nlinarith [hmul, ht2', hlv, h2]
      · rw [h] at h1
        norm_num at h1
    · have ht2' : temp2 p = -p.lv := by rw [ht2, h, neg_one_mul]
      rcases hc2.2 with ⟨h1, _⟩ | ⟨_, h2⟩
      · rw [h] at h1
        norm_num at h1
      · nlinarith [hmul, ht2', hlv, h2]
  · unfold phase2
    rw [if_neg (fun hx => hc2 hx.1)]

theorem cl1_nonneg (p : SmIn) (hla : 0 < p.la) (hvel : |p.vel| ≤ p.lv) (hdT : 0 < p.dT) :
    0 ≤ cl1 p :=
  le_min (phase1_nonneg p hla hvel) hdT.le

theorem cl2_nonneg (p : SmIn) : 0 ≤ cl2 p := le_max_right _ _

theorem cl3_nonneg (p : SmIn) : 0 ≤ cl3 p := le_max_right _ _

theorem cl1_le_phase1 (p : SmIn) : cl1 p ≤ phase1 p := min_le_left _ _

theorem cl3_le_phase3 (p : SmIn) (hla : 0 < p.la) (hvel : |p.vel| ≤ p.lv) :
    cl3 p ≤ phase3 p := by
  have h3 := phase3_nonneg p hla hvel
  unfold cl3
  have h1 : min (phase1 p + phase2 p + phase3 p) p.dT - phase2 p - phase1 p ≤ phase3 p := by
    have := min_le_left (phase1 p + phase2 p + phase3 p) p.dT
    linarith
  exact max_le h1 h3

/-- When any of phase 3 survives the clamp, phase 1 was not truncated. -/
theorem cl1_eq_of_cl3_pos (p : SmIn) (hla : 0 < p.la) (hlv : 0 < p.lv)
    (_hvel : |p.vel| ≤ p.lv) (h3 : 0 < cl3 p) : cl1 p = phase1 p := by
  have h2 := phase2_nonneg p hla hlv
  unfold cl3 at h3
  rcases max_cases (min (phase1 p + phase2 p + phase3 p) p.dT - phase2 p - phase1 p) (0 : ℝ)
    with ⟨he, _⟩ | ⟨he, _⟩
  · rw [he] at h3
    have hmin := min_le_right (phase1 p + phase2 p + phase3 p) p.dT
    unfold cl1
    exact min_eq_left (by linarith)
  · rw [he] at h3
    exact absurd h3 (lt_irrefl 0)

/-- The consumed time is the total phase time clamped by the remaining `deltaT`. -/
theorem consumed_eq (p : SmIn) (hla : 0 < p.la) (hlv : 0 < p.lv)
    (hvel : |p.vel| ≤ p.lv) (_hdT : 0 < p.dT) :
    cl1 p + cl2 p + cl3 p = min (phase1 p + phase2 p + phase3 p) p.dT := by
  have ha := phase1_nonneg p hla hvel
  have hb := phase2_nonneg p hla hlv
  have hc := phase3_nonneg p hla hvel
  rcases le_total p.dT (phase1 p) with h1 | h1
  · have e1 : cl1 p = p.dT := min_eq_right h1
    have e2 : cl2 p = 0 := by
      unfold cl2
      rw [min_eq_right (show p.dT ≤ phase1 p + phase2 p by linarith)]
      exact max_eq_right (by linarith)
    have e3 : cl3 p = 0 := by
      unfold cl3
      rw [min_eq_right (show p.dT ≤ phase1 p + phase2 p + phase3 p by linarith)]
      exact max_eq_right (by linarith)
    rw [e1, e2, e3, min_eq_right (show p.dT ≤ phase1 p + phase2 p + phase3 p by linarith)]
    ring
  · have e1 : cl1 p = phase1 p := min_eq_left h1
    rcases le_total p.dT (phase1 p + phase2 p) with h2 | h2
    · have e2 : cl2 p = p.dT - phase1 p := by
        unfold cl2
        rw [min_eq_right h2]
        exact max_eq_left (by linarith)
      have e3 : cl3 p = 0 := by
        unfold cl3
        rw [min_eq_right (show p.dT ≤ phase1 p + phase2 p + phase3 p by linarith)]
        exact max_eq_right (by linarith)
      rw [e1, e2, e3, min_eq_right (show p.dT ≤ phase1 p + phase2 p + phase3 p by linarith)]
      ring
    · have e2 : cl2 p = phase2 p := by
        unfold cl2
        rw [min_eq_left h2,
          max_eq_left (show (0 : ℝ) ≤ phase1 p + phase2 p - phase1 p by linarith)]
        ring
      rcases le_total p.dT (phase1 p + phase2 p + phase3 p) with h3 | h3
      · have e3 : cl3 p = p.dT - phase2 p - phase1 p := by
          unfold cl3
          rw [min_eq_right h3]
          exact max_eq_left (by linarith)
        rw [e1, e2, e3, min_eq_right h3]
        ring
      · have e3 : cl3 p = phase3 p := by
          unfold cl3
          rw [min_eq_left h3,
            max_eq_left
              (show (0 : ℝ) ≤ phase1 p + phase2 p + phase3 p - phase2 p - phase1 p by linarith)]
          ring
        rw [e1, e2, e3, min_eq_left h3]

/-- When the full profile fits in the remaining time, no phase is clamped. -/
theorem unclamped_eq (p : SmIn) (hla : 0 < p.la) (hlv : 0 < p.lv)
    (hvel : |p.vel| ≤ p.lv) (hfit : phase1 p + phase2 p + phase3 p ≤ p.dT) :
    cl1 p = phase1 p ∧ cl2 p = phase2 p ∧ cl3 p = phase3 p := by
  have ha := phase1_nonneg p hla hvel
  have hb := phase2_nonneg p hla hlv
  have hc := phase3_nonneg p hla hvel
  refine ⟨?_, ?_, ?_⟩
  · exact min_eq_left (by linarith)
  · unfold cl2
    rw [min_eq_left (by linarith)]
    rw [max_eq_left (by linarith)]
    ring
  · unfold cl3
    rw [min_eq_left hfit]
    rw [max_eq_left (by linarith)]
    ring

/-- An unclamped pass always ends with velocity exactly zero. -/
theorem newVel_unclamped (p : SmIn) (hla : 0 < p.la) (hlv : 0 < p.lv)
    (hvel : |p.vel| ≤ p.lv) (hfit : phase1 p + phase2 p + phase3 p ≤ p.dT) :
    newVel p = 0 := by
  obtain ⟨h1, _, h3⟩ := unclamped_eq p hla hlv hvel hfit
  have hv := la_mul_p3a p hla
  unfold newVel
  rw [h1, h3, phase3_eq]
  linear_combination (-1 : ℝ) * hv

/-- The normal branch keeps `lastVel` within `[-LimitVelocity, LimitVelocity]`. -/
theorem newVel_bound (p : SmIn) (hla : 0 < p.la) (hlv : 0 < p.lv)
    (hvel : |p.vel| ≤ p.lv) (hdT : 0 < p.dT) : |newVel p| ≤ p.lv := by
  have hvl := abs_le.1 hvel
  have hc1n := cl1_nonneg p hla hvel hdT
  have hc3n := cl3_nonneg p
  have hc1le := cl1_le_phase1 p
  have hc3le := cl3_le_phase3 p hla hvel
  have hp1le := phase1_le_p1d2 p hla hvel
  have h3eq := phase3_eq p
  rw [abs_le]
  rcases sdir_cases p with hd | hd
  · have hd2 : p.la * p1d2 p = p.lv - p.vel := by
      unfold p1d2
      rw [hd, one_mul, one_mul]
      field_simp
    have hpa : p.la * p3a p = p.vel := by
      unfold p3a
      rw [hd, one_mul]
      field_simp
    have f1 : p.la * cl1 p ≤ p.la * phase1 p := by nlinarith
    have f2 : p.la * phase1 p ≤ p.la * p1d2 p := by nlinarith
    have f3 : 0 ≤ p.la * cl1 p := mul_nonneg hla.le hc1n
    have f4 : 0 ≤ p.la * cl3 p := mul_nonneg hla.le hc3n
    have f5 : p.la * cl3 p ≤ p.la * phase3 p := by nlinarith
    have f6 : p.la * phase3 p = p.la * p3a p + p.la * phase1 p := by
      rw [h3eq]
      ring
    constructor
    · rcases eq_or_lt_of_le hc3n with h30 | h30
      · unfold newVel
        rw [hd, one_mul, ← h30, mul_zero]
        linarith
      · have hc1e := cl1_eq_of_cl3_pos p hla hlv hvel h30
        unfold newVel
        rw [hd, one_mul, hc1e]
        linarith [f5, f6, hpa]
    · unfold newVel
      rw [hd, one_mul]
      linarith [f1, f2, f4, hd2]
  · have hd2 : p.la * p1d2 p = p.lv + p.vel := by
      unfold p1d2
      rw [hd, neg_one_mul, neg_one_mul, div_neg]
      field_simp
      ring
    have hpa : p.la * p3a p = -p.vel := by
      unfold p3a
      rw [hd, neg_one_mul, div_neg]
      field_simp
      ring
    have f1 : p.la * cl1 p ≤ p.la * phase1 p := by nlinarith
    have f2 : p.la * phase1 p ≤ p.la * p1d2 p := by nlinarith
    have f3 : 0 ≤ p.la * cl1 p := mul_nonneg hla.le hc1n
    have f4 : 0 ≤ p.la * cl3 p := mul_nonneg hla.le hc3n
    have f5 : p.la * cl3 p ≤ p.la * phase3 p := by nlinarith
    have f6 : p.la * phase3 p = p.la * p3a p + p.la * phase1 p := by
      rw [h3eq]
      ring
    constructor
    · unfold newVel
      rw [hd, neg_one_mul, neg_mul, neg_mul]
      linarith [f1, f2, f4, hd2]
    · rcases eq_or_lt_of_le hc3n with h30 | h30
      · unfold newVel
        rw [hd, neg_one_mul, neg_mul, neg_mul, ← h30, mul_zero]
        linarith
      · have hc1e := cl1_eq_of_cl3_pos p hla hlv hvel h30
        unfold newVel
        rw [hd, neg_one_mul, neg_mul, neg_mul, hc1e]
        linarith [f5, f6, hpa]

/-- A normal-branch pass either exhausts `deltaT` or ends with zero velocity. -/
theorem normal_dT_or_vel (p : SmIn) (hla : 0 < p.la) (hlv : 0 < p.lv)
    (hvel : |p.vel| ≤ p.lv) (hdT : 0 < p.dT) : newDT p = 0 ∨ newVel p = 0 := by
  rcases le_total (phase1 p + phase2 p + phase3 p) p.dT with hfit | hcl
  · exact Or.inr (newVel_unclamped p hla hlv hvel hfit)
  · left
    have hce := consumed_eq p hla hlv hvel hdT
    unfold newDT
    split_ifs with h
    · rfl
    · rw [hce, min_eq_right hcl]
      ring

theorem p3a_zero (p : SmIn) (hv0 : p.vel = 0) : p3a p = 0 := by
  unfold p3a
  rw [hv0]
  exact zero_div _

theorem res1_zero (p : SmIn) (hv0 : p.vel = 0) : res1 p = 0 := by
  unfold res1
  rw [hv0, p3a_zero p hv0]
  ring

theorem temp1_zero (p : SmIn) (hv0 : p.vel = 0) : temp1 p = 0 := by
  unfold temp1
  rw [hv0]
  simp

theorem sdir_dPos_of_vel_zero (p : SmIn) (hv0 : p.vel = 0) :
    (sdir p = 1 ∧ 0 ≤ dPos p) ∨ (sdir p = -1 ∧ dPos p < 0) := by
  unfold sdir
  rw [hv0]
  norm_num
  exact le_or_lt 0 (dPos p)

theorem dPos_zero_of_not_cond1 (p : SmIn) (hv0 : p.vel = 0) (hnc : ¬ cond1 p) :
    dPos p = 0 := by
  have hr := res1_zero p hv0
  unfold cond1 at hnc
  push_neg at hnc
  rcases sdir_dPos_of_vel_zero p hv0 with ⟨hd, hge⟩ | ⟨hd, hlt⟩
  · have h := hnc.1 (by rw [hd]; norm_num)
    rw [hr] at h
    linarith
  · have h := hnc.2 (by rw [hd]; norm_num)
    rw [hr] at h
    linarith

/-- With zero entry velocity, a pass that runs Step 2 lands exactly on the
target when unclamped: `res2 = deltaPos` whenever Step 3 is skipped. -/
theorem res2_eq_dPos_of_vel_zero (p : SmIn) (hla : 0 < p.la) (hlv : 0 < p.lv)
    (hv0 : p.vel = 0) (hc : cond1 p) (hnc2 : ¬ cond2 p) : res2 p = dPos p := by
  have hvel : |p.vel| ≤ p.lv := by
    rw [hv0]
    simpa using hlv.le
  by_cases h : p1d1 p ≤ p1d2 p
  · exact quad_identity p hla hc (by unfold phase1; rw [if_pos hc]; exact min_eq_left h)
  · have hlt : p1d2 p < p1d1 p := lt_of_not_le h
    have hp : phase1 p = p1d2 p := by
      unfold phase1
      rw [if_pos hc]
      exact min_eq_right hlt.le
    have hre := res2_expand p
    rw [hv0] at hre
    have hr1 := res1_zero p hv0
    have hT := temp1_zero p hv0
    have hane := sdir_la_ne p hla
    have hd0 := disc_nonneg p hla hc
    have hs : Real.sqrt (disc p) * Real.sqrt (disc p) = disc p := Real.mul_self_sqrt hd0
    have hD : sdir p * p.la * disc p =
        sdir p * p.la * (temp1 p * temp1 p) - 4 * (res1 p - dPos p) := by
      rw [disc_eq]
      field_simp
      ring
    have hDz : sdir p * p.la * disc p = 4 * dPos p := by
      rw [hD, hT, hr1]
      ring
    have hq : sdir p * p.la * (p1d1 p * p1d1 p) = dPos p := by
      unfold p1d1
      rw [hT]
      linear_combination (1 / 4 : ℝ) * hDz + (sdir p * p.la / 4) * hs
    have hres2 : res2 p = sdir p * p.la * (p1d2 p * p1d2 p) := by
      rw [hre, hr1, hp]
      ring
    exfalso
    unfold cond2 at hnc2
    push_neg at hnc2
    have hnX := hnc2 hc
    have hd2n := p1d2_nonneg p hla hvel
    have hd1p := p1d1_pos p hla hc
    have key := mul_self_lt_mul_self hd2n hlt
    have keyla : p.la * (p1d2 p * p1d2 p) < p.la * (p1d1 p * p1d1 p) :=
      mul_lt_mul_of_pos_left key hla
    rcases sdir_cases p with hd | hd
    · rcases hc with ⟨_, hcc⟩ | ⟨hbad, _⟩
      · rw [hr1, sub_zero] at hcc
        have hle := hnX.1 (by rw [hd]; norm_num)
        rw [hres2] at hle
        rw [hd, one_mul] at hq hle
        linarith [hq, hle, keyla]
      · rw [hd] at hbad
        norm_num at hbad
    · rcases hc with ⟨hbad, _⟩ | ⟨_, hcc⟩
      · rw [hd] at hbad
        norm_num at hbad
      · rw [hr1, sub_zero] at hcc
        have hle := hnX.2 (by rw [hd]; norm_num)
        rw [hres2] at hle
        rw [hd, neg_one_mul, neg_mul] at hq hle
        linarith [hq, hle, keyla]

/-- An unclamped pass integrates exactly the profile displacement. -/
theorem newPos_unclamped (p : SmIn) (hla : 0 < p.la) (hlv : 0 < p.lv)
    (hvel : |p.vel| ≤ p.lv) (hfit : phase1 p + phase2 p + phase3 p ≤ p.dT) :
    newPos p = p.pos + res2 p + temp2 p * phase2 p := by
  obtain ⟨h1, h2, h3⟩ := unclamped_eq p hla hlv hvel hfit
  unfold newPos res2 temp2
  rw [h1, h2, h3]
  ring

/-- With zero entry velocity the normal branch always exhausts `deltaT`: it
either clamps to the remaining time or lands exactly and snaps. -/
theorem normal_dT_zero_of_vel_zero (p : SmIn) (hla : 0 < p.la) (hlv : 0 < p.lv)
    (hdT : 0 < p.dT) (hv0 : p.vel = 0) : newDT p = 0 := by
  have hvel : |p.vel| ≤ p.lv := by
    rw [hv0]
    simpa using hlv.le
  have heps : (0 : ℝ) ≤ AFX_MATH_EPS := by
    unfold AFX_MATH_EPS
    norm_num
  by_cases hc : cond1 p
  · rcases le_total (phase1 p + phase2 p + phase3 p) p.dT with hfit | hcl
    · have hnv := newVel_unclamped p hla hlv hvel hfit
      have hnp : newPos p = p.target := by
        rw [newPos_unclamped p hla hlv hvel hfit]
        by_cases hc2 : cond2 p
        · rw [temp2_mul_phase2 p hla hlv hc2]
          unfold dPos
          ring
        · have hp2 : phase2 p = 0 := by
            unfold phase2
            rw [if_neg (fun hx => hc2 hx.1)]
          rw [hp2, mul_zero, res2_eq_dPos_of_vel_zero p hla hlv hv0 hc hc2]
          unfold dPos
          ring
      have hsnap : |p.target - newPos p| ≤ AFX_MATH_EPS ∧ |0 - newVel p| ≤ AFX_MATH_EPS := by
        constructor
        · rw [hnp]
          simpa using heps
        · rw [hnv]
          simpa using heps
      unfold newDT
      rw [if_pos hsnap]
    · have hce := consumed_eq p hla hlv hvel hdT
      unfold newDT
      split_ifs with h
      · rfl
      · rw [hce, min_eq_right hcl]
        ring
  · have hd0 := dPos_zero_of_not_cond1 p hv0 hc
    have hp1 : phase1 p = 0 := by
      unfold phase1
      rw [if_neg hc]
    have hp2 : phase2 p = 0 := by
      unfold phase2
      rw [if_neg (fun hx => hc hx.1.1)]
    have hp3 : phase3 p = 0 := by
      rw [phase3_eq, hp1, p3a_zero p hv0]
      ring
    have hcl1 : cl1 p = 0 := by
      unfold cl1
      rw [hp1]
      exact min_eq_left hdT.le
    have hcl2 : cl2 p = 0 := by
      unfold cl2
      rw [hp1, hp2, add_zero, min_eq_left hdT.le, sub_zero]
      exact max_self 0
    have hcl3 : cl3 p = 0 := by
      unfold cl3
      rw [hp1, hp2, hp3, add_zero, add_zero, min_eq_left hdT.le, sub_zero, sub_zero]
      exact max_self 0
    have hnp : newPos p = p.pos := by
      unfold newPos
      rw [hcl1, hcl2, hcl3]
      ring
    have hnv : newVel p = p.vel := by
      unfold newVel
      rw [hcl1, hcl3]
      ring
    have hsnap : |p.target - newPos p| ≤ AFX_MATH_EPS ∧ |0 - newVel p| ≤ AFX_MATH_EPS := by
      constructor
      · rw [hnp]
        have he : p.target - p.pos = dPos p := rfl
        rw [he, hd0]
        simpa using heps
      · rw [hnv, hv0]
        simpa using heps
    unfold newDT
    rw [if_pos hsnap]

/-- Each normal-branch pass consumes positive time or zeroes `deltaT`. -/
theorem normal_progress (p : SmIn) (hla : 0 < p.la) (hlv : 0 < p.lv)
    (hvel : |p.vel| ≤ p.lv) (hdT : 0 < p.dT) : newDT p < p.dT ∨ newDT p = 0 := by
  have ha := phase1_nonneg p hla hvel
  have hb := phase2_nonneg p hla hlv
  have hc := phase3_nonneg p hla hvel
  rcases le_or_lt (phase1 p + phase2 p + phase3 p) 0 with hS | hS
  · right
    have h3z : phase3 p = 0 := by linarith
    have h1z : phase1 p = 0 := by linarith
    have hp3a : p3a p = 0 := by
      have h := phase3_eq p
      rw [h3z, h1z] at h
      linarith
    have hv0 : p.vel = 0 := by
      have h := la_mul_p3a p hla
      rw [hp3a, mul_zero] at h
      linarith
    exact normal_dT_zero_of_vel_zero p hla hlv hdT hv0
  · have hce := consumed_eq p hla hlv hvel hdT
    unfold newDT
    split_ifs with h
    · right
      rfl
    · left
      have hm : 0 < min (phase1 p + phase2 p + phase3 p) p.dT := lt_min hS hdT
      linarith [hce]

/-- When neither velocity-over-limit correction fires, the body is the normal
branch applied to the packed inputs. -/
theorem body_normal_eq (target lv la : ℝ) (s : SmState) (h1 : ¬ s.lastVel > lv)
    (h2 : ¬ s.lastVel < -lv) :
    calcSmoothBody target lv la s =
      ⟨newDT ⟨target, lv, la, s.deltaT, s.lastPos, s.lastVel⟩,
       newPos ⟨target, lv, la, s.deltaT, s.lastPos, s.lastVel⟩,
       newVel ⟨target, lv, la, s.deltaT, s.lastPos, s.lastVel⟩⟩ := by
  unfold calcSmoothBody
  rw [if_neg h1, if_neg h2]

/-- The first correction branch either exhausts `deltaT` or lands exactly on
the upper velocity limit. -/
theorem body_over (target lv la : ℝ) (hla : 0 < la) (s : SmState) (h : s.lastVel > lv) :
    (calcSmoothBody target lv la s).deltaT = 0 ∨
      (calcSmoothBody target lv la s).lastVel = lv := by
  have hne : (-la) ≠ 0 := neg_ne_zero.2 hla.ne'
  unfold calcSmoothBody
  rw [if_pos h]
  rcases le_total ((lv - s.lastVel) / (-la)) s.deltaT with hle | hle
  · right
    show s.lastVel + (-la) * min ((lv - s.lastVel) / (-la)) s.deltaT = lv
    rw [min_eq_left hle]
    field_simp
  · left
    show s.deltaT - min ((lv - s.lastVel) / (-la)) s.deltaT = 0
    rw [min_eq_right hle]
    ring

/-- The second correction branch either exhausts `deltaT` or lands exactly on
the lower velocity limit. -/
theorem body_under (target lv la : ℝ) (hla : 0 < la) (hlv : 0 < lv) (s : SmState)
    (h : s.lastVel < -lv) :
    (calcSmoothBody target lv la s).deltaT = 0 ∨
      (calcSmoothBody target lv la s).lastVel = -lv := by
  have h1 : ¬ s.lastVel > lv := by
    intro hx
    linarith
  unfold calcSmoothBody
  rw [if_neg h1, if_pos h]
  rcases le_total ((-lv - s.lastVel) / la) s.deltaT with hle | hle
  · right
    show s.lastVel + la * min ((-lv - s.lastVel) / la) s.deltaT = -lv
    rw [min_eq_left hle]
    field_simp
  · left
    show s.deltaT - min ((-lv - s.lastVel) / la) s.deltaT = 0
    rw [min_eq_right hle]
    ring

/-- Every pass of the loop body consumes positive `deltaT` or zeroes it. -/
theorem body_progress (target lv la : ℝ) (hla : 0 < la) (hlv : 0 < lv) (s : SmState)
    (hdT : 0 < s.deltaT) :
    (calcSmoothBody target lv la s).deltaT < s.deltaT ∨
      (calcSmoothBody target lv la s).deltaT = 0 := by
  by_cases h1 : s.lastVel > lv
  · left
    unfold calcSmoothBody
    rw [if_pos h1]
    show s.deltaT - min ((lv - s.lastVel) / (-la)) s.deltaT < s.deltaT
    have hpos : 0 < (lv - s.lastVel) / (-la) :=
      div_pos_of_neg_of_neg (by linarith) (by linarith)
    have hm := lt_min hpos hdT
    linarith
  · by_cases h2 : s.lastVel < -lv
    · left
      unfold calcSmoothBody
      rw [if_neg h1, if_pos h2]
      show s.deltaT - min ((-lv - s.lastVel) / la) s.deltaT < s.deltaT
      have hpos : 0 < (-lv - s.lastVel) / la := div_pos (by linarith) hla
      have hm := lt_min hpos hdT
      linarith
    · rw [body_normal_eq target lv la s h1 h2]
      exact normal_progress ⟨target, lv, la, s.deltaT, s.lastPos, s.lastVel⟩ hla hlv
        (abs_le.2 ⟨by linarith [not_lt.1 h2], not_lt.1 h1⟩) hdT

/-- A within-limits pass either exhausts `deltaT` or ends with zero velocity. -/
theorem body_norm_dT_or_vel (target lv la : ℝ) (hla : 0 < la) (hlv : 0 < lv) (s : SmState)
    (hvel : |s.lastVel| ≤ lv) (hdT : 0 < s.deltaT) :
    (calcSmoothBody target lv la s).deltaT = 0 ∨
      (calcSmoothBody target lv la s).lastVel = 0 := by
  have hv := abs_le.1 hvel
  have h1 : ¬ s.lastVel > lv := not_lt.2 hv.2
  have h2 : ¬ s.lastVel < -lv := not_lt.2 hv.1
  rw [body_normal_eq target lv la s h1 h2]
  exact normal_dT_or_vel ⟨target, lv, la, s.deltaT, s.lastPos, s.lastVel⟩ hla hlv hvel hdT

/-- A pass entered with zero velocity exhausts `deltaT`. -/
theorem body_vel_zero (target lv la : ℝ) (hla : 0 < la) (hlv : 0 < lv) (s : SmState)
    (hv0 : s.lastVel = 0) (hdT : 0 < s.deltaT) :
    (calcSmoothBody target lv la s).deltaT = 0 := by
  have h1 : ¬ s.lastVel > lv := by
    rw [hv0]
    exact not_lt.2 hlv.le
  have h2 : ¬ s.lastVel < -lv := by
    rw [hv0]
    exact not_lt.2 (by linarith)
  rw [body_normal_eq target lv la s h1 h2]
  exact normal_dT_zero_of_vel_zero ⟨target, lv, la, s.deltaT, s.lastPos, s.lastVel⟩
    hla hlv hdT hv0

/-- C3's core: a within-limits pass keeps the velocity within limits. -/
theorem body_vel_inv (target lv la : ℝ) (hla : 0 < la) (hlv : 0 < lv) (s : SmState)
    (hvel : |s.lastVel| ≤ lv) (hdT : 0 < s.deltaT) :
    |(calcSmoothBody target lv la s).lastVel| ≤ lv := by
  have hv := abs_le.1 hvel
  have h1 : ¬ s.lastVel > lv := not_lt.2 hv.2
  have h2 : ¬ s.lastVel < -lv := not_lt.2 hv.1
  rw [body_normal_eq target lv la s h1 h2]
  exact newVel_bound ⟨target, lv, la, s.deltaT, s.lastPos, s.lastVel⟩ hla hlv hvel hdT

theorem loop_succ (target lv la : ℝ) (n : ℕ) (s : SmState) :
    calcSmoothLoop target lv la (n + 1) s =
      if 0 < s.deltaT then calcSmoothLoop target lv la n (calcSmoothBody target lv la s)
      else s := rfl

theorem loop_stop (target lv la : ℝ) (n : ℕ) (s : SmState) (h : ¬ 0 < s.deltaT) :
    calcSmoothLoop target lv la n s = s := by
  cases n with
  | zero => rfl
  | succ n => rw [loop_succ, if_neg h]

theorem loop_vel_inv (target lv la : ℝ) (hla : 0 < la) (hlv : 0 < lv) :
    ∀ (n : ℕ) (s : SmState), |s.lastVel| ≤ lv →
      |(calcSmoothLoop target lv la n s).lastVel| ≤ lv := by
  intro n
  induction n with
  | zero => intro s hs; exact hs
  | succ n ih =>
    intro s hs
    rw [loop_succ]
    split_ifs with h
    · exact ih _ (body_vel_inv target lv la hla hlv s hs h)
    · exact hs

theorem loop_two_done (target lv la : ℝ) (hla : 0 < la) (hlv : 0 < lv) (s1 : SmState)
    (h : |s1.lastVel| ≤ lv) : (calcSmoothLoop target lv la 2 s1).deltaT ≤ 0 := by
  by_cases h1 : 0 < s1.deltaT
  · rw [show (2 : ℕ) = 1 + 1 from rfl, loop_succ, if_pos h1]
    rcases body_norm_dT_or_vel target lv la hla hlv s1 h h1 with h2 | h2
    · rw [loop_stop target lv la 1 _ (by rw [h2]; exact lt_irrefl 0)]
      exact le_of_eq h2
    · by_cases hdt2 : 0 < (calcSmoothBody target lv la s1).deltaT
      · rw [show (1 : ℕ) = 0 + 1 from rfl, loop_succ, if_pos hdt2]
        exact le_of_eq (body_vel_zero target lv la hla hlv _ h2 hdt2)
      · rw [loop_stop target lv la 1 _ hdt2]
        linarith [not_lt.1 hdt2]
  · rw [loop_stop target lv la 2 s1 h1]
    linarith [not_lt.1 h1]

theorem loop_three_done (target lv la : ℝ) (hla : 0 < la) (hlv : 0 < lv) (s : SmState) :
    (calcSmoothLoop target lv la 3 s).deltaT ≤ 0 := by
  by_cases h0 : 0 < s.deltaT
  · rw [show (3 : ℕ) = 2 + 1 from rfl, loop_succ, if_pos h0]
    by_cases hv1 : s.lastVel > lv
    · rcases body_over target lv la hla s hv1 with h | h
      · rw [loop_stop target lv la 2 _ (by rw [h]; exact lt_irrefl 0)]
        exact le_of_eq h
      · refine loop_two_done target lv la hla hlv _ (le_of_eq ?_)
        rw [h]
        exact abs_of_pos hlv
    · by_cases hv2 : s.lastVel < -lv
      · rcases body_under target lv la hla hlv s hv2 with h | h
        · rw [loop_stop target lv la 2 _ (by rw [h]; exact lt_irrefl 0)]
          exact le_of_eq h
        · refine loop_two_done target lv la hla hlv _ (le_of_eq ?_)
          rw [h, abs_neg]
          exact abs_of_pos hlv
      · exact loop_two_done target lv la hla hlv _
          (body_vel_inv target lv la hla hlv s
            (abs_le.2 ⟨by linarith [not_lt.1 hv2], not_lt.1 hv1⟩) h0)
  · rw [loop_stop target lv la 3 s h0]
    linarith [not_lt.1 h0]

theorem loop_add (target lv la : ℝ) :
    ∀ (k m : ℕ) (s : SmState), calcSmoothLoop target lv la (k + m) s =
      calcSmoothLoop target lv la m (calcSmoothLoop target lv la k s) := by
  intro k
  induction k with
  | zero =>
    intro m s
    rw [Nat.zero_add]
    rfl
  | succ k ih =>
    intro m s
    by_cases h : 0 < s.deltaT
    · rw [show k + 1 + m = k + m + 1 from by omega, loop_succ, loop_succ,
        if_pos h, if_pos h]
      exact ih m (calcSmoothBody target lv la s)
    · rw [loop_stop target lv la (k + 1 + m) s h, loop_stop target lv la (k + 1) s h,
        loop_stop target lv la m s h]

theorem loop_stable (target lv la : ℝ) (hla : 0 < la) (hlv : 0 < lv) (s : SmState)
    (n : ℕ) (hn : 3 ≤ n) :
    calcSmoothLoop target lv la n s = calcSmoothLoop target lv la 3 s := by
  obtain ⟨m, rfl⟩ : ∃ m, n = 3 + m := ⟨n - 3, by omega⟩
  rw [loop_add]
  exact loop_stop target lv la m _ (not_lt.2 (loop_three_done target lv la hla hlv s))

/-! ## C3, C4 — the claim theorems for `CalcSmooth` -/

/-- C3: with positive limits and `|lastVel| ≤ LimitVelocity` on entry, the
velocity bound is an invariant of the `CalcSmooth` loop — it holds after every
iteration (every fuel prefix of the loop) and on return. -/
theorem c3_calcsmooth_velocity_bound (target lv la dT pos vel : ℝ)
    (hlv : 0 < lv) (hla : 0 < la) (hvel : |vel| ≤ lv) :
    (∀ n : ℕ, |(calcSmoothLoop target lv la n ⟨dT, pos, vel⟩).lastVel| ≤ lv) ∧
    |(CalcSmooth dT target pos vel lv la).2| ≤ lv := by
  constructor
  · intro n
    exact loop_vel_inv target lv la hla hlv n ⟨dT, pos, vel⟩ hvel
  · unfold CalcSmooth
    split_ifs with h
    · exact hvel
    · exact loop_vel_inv target lv la hla hlv 3 ⟨dT, pos, vel⟩ hvel

/-- Witness for C3 at a concrete call. -/
theorem c3_calcsmooth_velocity_bound_witness :
    ((0 : ℝ) < 1 ∧ |(0 : ℝ)| ≤ 1) ∧
    (∀ n : ℕ, |(calcSmoothLoop 0 1 1 n ⟨1, 0, 0⟩).lastVel| ≤ 1) ∧
    |(CalcSmooth 1 0 0 0 1 1).2| ≤ 1 := by
  have h := c3_calcsmooth_velocity_bound 0 1 1 1 0 0 (by norm_num) (by norm_num) (by norm_num)
  exact ⟨⟨by norm_num, by norm_num⟩, h.1, h.2⟩

/-- C4: with positive limits, the `CalcSmooth` loop terminates on every input:
in exact arithmetic three passes always exhaust `deltaT` (so every larger fuel
gives the same result — the `while` loop finishes after at most 3 iterations),
and each pass either consumes a positive amount of `deltaT` or sets it to zero
(the epsilon snap). -/
theorem c4_calcsmooth_terminates (target lv la : ℝ) (hlv : 0 < lv) (hla : 0 < la) :
    (∀ s : SmState, (calcSmoothLoop target lv la 3 s).deltaT ≤ 0) ∧
    (∀ (s : SmState) (n : ℕ), 3 ≤ n →
      calcSmoothLoop target lv la n s = calcSmoothLoop target lv la 3 s) ∧
    (∀ s : SmState, 0 < s.deltaT →
      (calcSmoothBody target lv la s).deltaT < s.deltaT ∨
        (calcSmoothBody target lv la s).deltaT = 0) :=
  ⟨fun s => loop_three_done target lv la hla hlv s,
   fun s n hn => loop_stable target lv la hla hlv s n hn,
   fun s hdT => body_progress target lv la hla hlv s hdT⟩

/-- Witness for C4 at a concrete call. -/
theorem c4_calcsmooth_terminates_witness :
    ((0 : ℝ) < 1 ∧ (0 : ℝ) < 1) ∧
    (calcSmoothLoop 0 1 1 3 ⟨1, 0, 0⟩).deltaT ≤ 0 :=
  ⟨⟨by norm_num, by norm_num⟩,
   (c4_calcsmooth_terminates 0 1 1 (by norm_num) (by norm_num)).1 ⟨1, 0, 0⟩⟩
